import Mathlib

set_option maxRecDepth 20000

/-!  Shallow embedding of `src/linkedin_research.py`.

The program's logic lives in three places, all embedded below:

* `build_user_prompt` (source lines 112-133): an f-string template.
* `extract_json_array` (source lines 136-162): regex span search
  (`JSON_REGEX = re.compile(r"\[.*\]", re.DOTALL)`, line 109), `json.loads`,
  per-element field coercion and filtering, URL normalization, and a stable
  dedup by URL.
* the inline assistant-content extraction in the submit handler
  (source lines 205-215).

`json.loads` is an external library call; it is embedded as a recursive
descent parser for the JSON grammar accepted by Python's `json` module
(strict mode): `null`/`true`/`false`, numbers per the RFC grammar, strings
with the standard escapes (raw control characters rejected), arrays and
objects with `[ \t\n\r]` whitespace between tokens, duplicate object keys
resolved last-wins. Two CPython details are abstracted: the decimal
re-formatting of non-integer floats (the literal lexeme is kept instead) and
surrogate-pair recombination of `\uXXXX` escapes.  Python's recursion limit
on deeply nested documents is mirrored by a fuel parameter that is always
sufficient for inputs whose nesting fits the input length.  -/

/-- JSON values as produced by `json.loads`.  Integer and non-integer numeric
literals are kept apart because Python's `str` renders them differently. -/
inductive Json where
  | null
  | bool (b : Bool)
  | int (n : Int)
  | float (lexeme : String)
  | str (s : String)
  | arr (items : List Json)
  | obj (members : List (String × Json))

/-- Whitespace accepted between JSON tokens by Python's `json` scanner. -/
def isJsonWs (c : Char) : Bool :=
  c = ' ' || c = '\t' || c = '\n' || c = '\r'

/-- Whitespace stripped by Python `str.strip()` (the ASCII part). -/
def isPyWs (c : Char) : Bool :=
  c = ' ' || c = '\t' || c = '\n' || c = '\r' || c = '\x0b' || c = '\x0c'

def skipJsonWs (cs : List Char) : List Char := cs.dropWhile isJsonWs

/-- Python `s.strip()` on a string. -/
def pyStrip (s : String) : String :=
  String.mk (((s.toList.dropWhile isPyWs).reverse.dropWhile isPyWs).reverse)

/-- Substring test on character lists: Python's `needle in hay`. -/
def containsSubL (n : List Char) : List Char → Bool
  | [] => n.isEmpty
  | c :: t => n.isPrefixOf (c :: t) || containsSubL n t

/-- Python's `needle in hay` on strings. -/
def containsSub (needle hay : String) : Bool :=
  containsSubL needle.toList hay.toList

/-- Number of positions of `hay` at which `needle` occurs (for a needle that
cannot overlap itself this is Python's `hay.count(needle)`). -/
def countSubL (n : List Char) : List Char → Nat
  | [] => 0
  | c :: t => (if n.isPrefixOf (c :: t) then 1 else 0) + countSubL n t

def countSub (needle hay : String) : Nat :=
  countSubL needle.toList hay.toList

/-- Python `s.split(sep)[0]` for a one-character separator: the prefix of `s`
before the first occurrence of `c` (all of `s` when `c` is absent). -/
def cutBefore (c : Char) (s : String) : String :=
  String.mk (s.toList.takeWhile (fun x => x ≠ c))

/-- Lookup in a JSON object's member list with the last occurrence winning,
matching how `json.loads` builds a Python dict from duplicate keys. -/
def lookupLast (kvs : List (String × Json)) (k : String) : Option Json :=
  match kvs with
  | [] => none
  | (k', v) :: rest =>
    match lookupLast rest k with
    | some r => some r
    | none => if k' = k then some v else none

/-!  Python `str()` applied to a decoded JSON value (`str(item.get(...))` on
source lines 147 and 148).  `None`, booleans and integers follow CPython
exactly; for non-integer floats the literal lexeme stands in for CPython's
float repr; for containers the `repr` is reproduced with the string-escaping
of `repr` abstracted (strings are shown between plain single quotes). -/
mutual

def pyStr : Json → String
  | .null => "None"
  | .bool true => "True"
  | .bool false => "False"
  | .int n => toString n
  | .float lexeme => lexeme
  | .str s => s
  | .arr items => "[" ++ pyReprItems items ++ "]"
  | .obj members => "\x7b" ++ pyReprMembers members ++ "\x7d"

def pyRepr : Json → String
  | .null => "None"
  | .bool true => "True"
  | .bool false => "False"
  | .int n => toString n
  | .float lexeme => lexeme
  | .str s => "'" ++ s ++ "'"
  | .arr items => "[" ++ pyReprItems items ++ "]"
  | .obj members => "\x7b" ++ pyReprMembers members ++ "\x7d"

def pyReprItems : List Json → String
  | [] => ""
  | [x] => pyRepr x
  | x :: y :: rest => pyRepr x ++ ", " ++ pyReprItems (y :: rest)

def pyReprMembers : List (String × Json) → String
  | [] => ""
  | [(k, v)] => "'" ++ k ++ "': " ++ pyRepr v
  | (k, v) :: m :: rest => "'" ++ k ++ "': " ++ pyRepr v ++ ", " ++ pyReprMembers (m :: rest)

end

/-- Value of a hexadecimal digit, as accepted inside a `\uXXXX` escape. -/
def hexVal (c : Char) : Option Nat :=
  if '0' ≤ c ∧ c ≤ '9' then some (c.toNat - 48)
  else if 'a' ≤ c ∧ c ≤ 'f' then some (c.toNat - 87)
  else if 'A' ≤ c ∧ c ≤ 'F' then some (c.toNat - 55)
  else none

/-- The single-character JSON string escapes. -/
def escMap (c : Char) : Option Char :=
  if c = '"' then some '"'
  else if c = '\\' then some '\\'
  else if c = '/' then some '/'
  else if c = 'b' then some '\x08'
  else if c = 'f' then some '\x0c'
  else if c = 'n' then some '\n'
  else if c = 'r' then some '\r'
  else if c = 't' then some '\t'
  else none

/-- Body of a JSON string literal, after the opening quote: decoded content
plus the remaining input after the closing quote.  Raw control characters are
rejected (strict mode of `json.loads`); surrogate pairing of `\uXXXX` escapes
is abstracted by decoding each escape to its own code point. -/
def parseStringBody : List Char → Option (List Char × List Char)
  | [] => none
  | c :: rest =>
    if c = '"' then some ([], rest)
    else if c = '\\' then
      match rest with
      | [] => none
      | e :: rest2 =>
        if e = 'u' then
          match rest2 with
          | h1 :: h2 :: h3 :: h4 :: rest3 =>
            match hexVal h1, hexVal h2, hexVal h3, hexVal h4 with
            | some a, some b, some c2, some d =>
              match parseStringBody rest3 with
              | some (s, r) => some (Char.ofNat (((a * 16 + b) * 16 + c2) * 16 + d) :: s, r)
              | none => none
            | _, _, _, _ => none
          | _ => none
        else
          match escMap e with
          | some ec =>
            match parseStringBody rest2 with
            | some (s, r) => some (ec :: s, r)
            | none => none
          | none => none
    else if c.toNat < 32 then none
    else
      match parseStringBody rest with
      | some (s, r) => some (c :: s, r)
      | none => none

def digitsToNat (ds : List Char) : Nat :=
  ds.foldl (fun a c => a * 10 + (c.toNat - 48)) 0

/-- A JSON number literal, following the regular expression used by Python's
`json` scanner: `-?(0|[1-9][0-9]*)(\.[0-9]+)?([eE][-+]?[0-9]+)?`, matched
greedily with the optional groups taken only when they fully match. -/
def parseNumber (cs : List Char) : Option (Json × List Char) :=
  let signed : Bool × List Char :=
    match cs with
    | '-' :: t => (true, t)
    | _ => (false, cs)
  match signed.2 with
  | [] => none
  | d :: t =>
    if d = '0' then
      numTail signed.1 ['0'] t
    else if d.isDigit then
      let ds := t.takeWhile Char.isDigit
      numTail signed.1 (d :: ds) (t.dropWhile Char.isDigit)
    else none
where
  /-- Optional fraction and exponent after the integer part. -/
  numTail (neg : Bool) (intDs : List Char) (rest : List Char) : Option (Json × List Char) :=
    let frac : List Char × List Char :=
      match rest with
      | '.' :: r =>
        match r.takeWhile Char.isDigit with
        | [] => ([], rest)
        | ds => ('.' :: ds, r.dropWhile Char.isDigit)
      | _ => ([], rest)
    let afterFrac := frac.2
    let expPart : List Char × List Char :=
      match afterFrac with
      | e :: r =>
        if e = 'e' ∨ e = 'E' then
          match r with
          | s :: r2 =>
            if s = '+' ∨ s = '-' then
              match r2.takeWhile Char.isDigit with
              | [] => ([], afterFrac)
              | ds => (e :: s :: ds, r2.dropWhile Char.isDigit)
            else
              match r.takeWhile Char.isDigit with
              | [] => ([], afterFrac)
              | ds => (e :: ds, r.dropWhile Char.isDigit)
          | [] => ([], afterFrac)
        else ([], afterFrac)
      | [] => ([], afterFrac)
    let restFinal := expPart.2
    if frac.1.isEmpty ∧ expPart.1.isEmpty then
      let n : Int := Int.ofNat (digitsToNat intDs)
      some (Json.int (if neg then -n else n), restFinal)
    else
      let lex := (if neg then ['-'] else []) ++ intDs ++ frac.1 ++ expPart.1
      some (Json.float (String.mk lex), restFinal)

/-- The decoded result of a JSON string literal body. -/
def parseStrLit (rest : List Char) : Option (Json × List Char) :=
  match parseStringBody rest with
  | some (s, r) => some (Json.str (String.mk s), r)
  | none => none

/-- The tail of the literal `null` after its first character. -/
def parseNullLit (rest : List Char) : Option (Json × List Char) :=
  match rest with
  | c1 :: c2 :: c3 :: r =>
    if c1 = 'u' ∧ c2 = 'l' ∧ c3 = 'l' then some (Json.null, r) else none
  | _ => none

/-- The tail of the literal `true` after its first character. -/
def parseTrueLit (rest : List Char) : Option (Json × List Char) :=
  match rest with
  | c1 :: c2 :: c3 :: r =>
    if c1 = 'r' ∧ c2 = 'u' ∧ c3 = 'e' then some (Json.bool true, r) else none
  | _ => none

/-- The tail of the literal `false` after its first character. -/
def parseFalseLit (rest : List Char) : Option (Json × List Char) :=
  match rest with
  | c1 :: c2 :: c3 :: c4 :: r =>
    if c1 = 'a' ∧ c2 = 'l' ∧ c3 = 's' ∧ c4 = 'e' then some (Json.bool false, r) else none
  | _ => none

/-!  Recursive-descent JSON value parser with explicit fuel.  Each unit of
fuel covers one step of the mutual recursion; `json_loads` supplies fuel
`4 * length + 4`, which is sufficient for every document (each constant
number of recursion steps consumes input, so the parse result is independent
of any further fuel increase). -/
mutual

def parseVal : Nat → List Char → Option (Json × List Char)
  | 0, _ => none
  | _ + 1, [] => none
  | f + 1, c :: rest =>
    if c = '"' then parseStrLit rest
    else if c = '[' then parseArrBody f (skipJsonWs rest)
    else if c = '\x7b' then parseObjBody f (skipJsonWs rest)
    else if c = 'n' then parseNullLit rest
    else if c = 't' then parseTrueLit rest
    else if c = 'f' then parseFalseLit rest
    else if c = '-' ∨ c.isDigit then parseNumber (c :: rest)
    else none

/-- Inside a JSON array, after the opening bracket and leading whitespace. -/
def parseArrBody : Nat → List Char → Option (Json × List Char)
  | 0, _ => none
  | _ + 1, [] => none
  | f + 1, c1 :: r =>
    if c1 = ']' then some (Json.arr [], r)
    else
      match parseArrElems f (c1 :: r) with
      | some (es, r2) => some (Json.arr es, r2)
      | none => none

/-- Inside a JSON object, after the opening brace and leading whitespace. -/
def parseObjBody : Nat → List Char → Option (Json × List Char)
  | 0, _ => none
  | _ + 1, [] => none
  | f + 1, c1 :: r =>
    if c1 = '\x7d' then some (Json.obj [], r)
    else
      match parseObjMembers f (c1 :: r) with
      | some (ms, r2) => some (Json.obj ms, r2)
      | none => none

/-- One or more array elements separated by commas. -/
def parseArrElems : Nat → List Char → Option (List Json × List Char)
  | 0, _ => none
  | f + 1, cs =>
    match parseVal f cs with
    | none => none
    | some (v, r) => parseArrSep f v (skipJsonWs r)

/-- After one array element: a closing bracket or a comma. -/
def parseArrSep : Nat → Json → List Char → Option (List Json × List Char)
  | 0, _, _ => none
  | _ + 1, _, [] => none
  | f + 1, v, c :: r2 =>
    if c = ']' then some ([v], r2)
    else if c = ',' then
      match parseArrElems f (skipJsonWs r2) with
      | some (es, r3) => some (v :: es, r3)
      | none => none
    else none

/-- One or more object members separated by commas. -/
def parseObjMembers : Nat → List Char → Option (List (String × Json) × List Char)
  | 0, _ => none
  | _ + 1, [] => none
  | f + 1, ck :: kr =>
    if ck = '"' then
      match parseStringBody kr with
      | none => none
      | some (k, r) => parseObjColon f (String.mk k) (skipJsonWs r)
    else none

/-- After a member key: the colon and the member value. -/
def parseObjColon : Nat → String → List Char → Option (List (String × Json) × List Char)
  | 0, _, _ => none
  | _ + 1, _, [] => none
  | f + 1, k, c1 :: r2 =>
    if c1 = ':' then
      match parseVal f (skipJsonWs r2) with
      | none => none
      | some (v, r3) => parseObjSep f k v (skipJsonWs r3)
    else none

/-- After one object member: a closing brace or a comma. -/
def parseObjSep : Nat → String → Json → List Char → Option (List (String × Json) × List Char)
  | 0, _, _, _ => none
  | _ + 1, _, _, [] => none
  | f + 1, k, v, c2 :: r4 =>
    if c2 = '\x7d' then some ([(k, v)], r4)
    else if c2 = ',' then
      match parseObjMembers f (skipJsonWs r4) with
      | some (ms, r5) => some ((k, v) :: ms, r5)
      | none => none
    else none

end

/-- Python `json.loads` on a string: one JSON document surrounded only by
whitespace; anything else (including trailing data) fails. -/
def json_loads (s : String) : Option Json :=
  let cs := skipJsonWs s.toList
  match parseVal (4 * cs.length + 4) cs with
  | some (v, r) => if skipJsonWs r = [] then some v else none
  | none => none

/-!  The regex span search: `JSON_REGEX = re.compile(r"\[.*\]", re.DOTALL)`
and `JSON_REGEX.search(text)` (source lines 109 and 140).  `re.search` finds
the leftmost position where the pattern matches; a match starts at a `[` that
has some `]` after it, and the greedy `.*` (with DOTALL) extends the match to
the last `]` of the input. -/

/-- Prefix of `cs` up to and including the last occurrence of `c`
(meaningful when `c ∈ cs`). -/
def takeToLast (c : Char) : List Char → List Char
  | [] => []
  | x :: t => if c ∈ t then x :: takeToLast c t else [x]

/-- `JSON_REGEX.search(text)` returning `m.group(0)`: scan left to right for
a `[` followed somewhere later by a `]`; the greedy match runs to the last
`]` of the remaining input. -/
def jsonRegexSearch : List Char → Option (List Char)
  | [] => none
  | c :: rest =>
    if c = '[' ∧ ']' ∈ rest then some ('[' :: takeToLast ']' rest)
    else jsonRegexSearch rest

/-- Source line 141: `raw = m.group(0) if m else text.strip()`. -/
def candidateOf (text : String) : String :=
  match jsonRegexSearch text.toList with
  | some span => String.mk span
  | none => pyStrip text

/-- Output record: the dict `{"name": name, "linkedin_url": url}` appended on
source line 152. -/
structure CompanyRecord where
  name : String
  linkedin_url : String
deriving DecidableEq

/-- `item.get(key, default)` for a decoded JSON element.  In the extraction
pipeline this is only ever reached with `item` a dict; on any other value the
attribute lookup of `.get` raises in Python, which the pipeline turns into an
empty overall result (see `normalizedRows`). -/
def pyGetD (j : Json) (k : String) (d : Json) : Json :=
  match j with
  | .obj kvs => (lookupLast kvs k).getD d
  | _ => d

/-- Source line 147: `str(item.get("name", "")).strip()`. -/
def nameOf (j : Json) : String :=
  pyStrip (pyStr (pyGetD j "name" (Json.str "")))

/-- Source line 148: `str(item.get("linkedin_url", "")).strip()`. -/
def urlOf (j : Json) : String :=
  pyStrip (pyStr (pyGetD j "linkedin_url" (Json.str "")))

/-- Source lines 149-152: the keep test and URL normalization for one
element. -/
def mkRow (j : Json) : Option CompanyRecord :=
  if nameOf j ≠ "" ∧ urlOf j ≠ "" ∧ containsSub "/company/" (urlOf j) = true then
    some ⟨nameOf j, cutBefore '#' (cutBefore '?' (urlOf j))⟩
  else none

/-- Is the decoded element a dict?  A non-dict element makes `item.get`
raise `AttributeError`, which the surrounding `except` turns into `[]`. -/
def isJObj : Json → Bool
  | .obj _ => true
  | _ => false

def isJArr : Json → Bool
  | .arr _ => true
  | _ => false

/-- Source lines 153-159: dedup by URL with a `seen` set, preserving order. -/
def dedupeGo (seen : List String) : List CompanyRecord → List CompanyRecord
  | [] => []
  | r :: rest =>
    if r.linkedin_url ∈ seen then dedupeGo seen rest
    else r :: dedupeGo (r.linkedin_url :: seen) rest

def dedupe (rows : List CompanyRecord) : List CompanyRecord :=
  dedupeGo [] rows

/-- The `rows` list of source lines 145-152, as observable after the `try`
block: empty when the input is empty, the candidate fails to parse, the
parsed document is not an array, or any element of the array is not a dict
(in Python the loop then raises and the `except` discards all rows).
Iterating a non-array (dict keys, string characters) also ends in `.get`
raising on the first element, or in an empty loop — in every case `[]`. -/
def normalizedRows (text : String) : List CompanyRecord :=
  if text = "" then []
  else
    match json_loads (candidateOf text) with
    | some (Json.arr items) =>
      if items.all isJObj then items.filterMap mkRow else []
    | _ => []

/-- Source lines 136-162: `extract_json_array`. -/
def extract_json_array (text : String) : List CompanyRecord :=
  dedupe (normalizedRows text)

/-- Python `s or default` for strings: `default` when `s` is empty. -/
def pyOr (s d : String) : String := if s = "" then d else s

/-- Source lines 112-133: `build_user_prompt`, an f-string reproduced
verbatim (`{{`/`}}` in the f-string are literal braces). -/
def build_user_prompt (keywords location size starts_with : String) (k : Nat) : String :=
  "\nYou are a web research assistant.\nTask: Find up to " ++ toString k ++
  " **public LinkedIn company pages** that match these filters.\n\nFilters:\n- Keywords (match any): " ++
  pyOr keywords "N/A" ++
  "\n- Location (city/region/country words must appear on the page or metadata): " ++
  pyOr location "N/A" ++
  "\n- Company size (use LinkedIn size tag when visible): " ++ size ++
  "\n- Company name starts with: " ++ pyOr starts_with "any" ++
  "\n\nRules:\n1) Use web search. Consider reputable sources and prioritize LinkedIn **company** pages only (URLs like `https://www.linkedin.com/company/...`).\n2) Exclude personal profiles, job posts, posts, or sales pages.\n3) Return **ONLY** a compact JSON array (no prose) with objects of shape:\n   \x7b\"name\": \"Company Name\", \"linkedin_url\": \"https://www.linkedin.com/company/...\"\x7d\n4) Ensure URLs are canonical company pages (avoid tracking params) and unique by company domain.\n5) Prefer companies whose page text/snippet shows the keyword(s) and location signal.\n6) If nothing is found, return `[]`.\n\nOutput: JSON array only.\n"

/-!  Assistant-content extraction from the decoded response body
(source lines 207-215):

    try:
        content = data["choices"][0]["message"]["content"]
    except Exception:
        content = (data.get("choices", [{}])[0]
                       .get("messages", [{}])[0]
                       .get("content", ""))

`none` models an exception escaping the step. -/

/-- Python `x[k]` for a string key: succeeds only on a dict containing the
key (`KeyError`/`TypeError` otherwise). -/
def pySubscript (j : Json) (k : String) : Option Json :=
  match j with
  | .obj kvs => lookupLast kvs k
  | _ => none

/-- Python `x[0]` as used on the `choices`/`messages` values: the head of a
list.  An empty list raises `IndexError`; a dict raises `KeyError`; a number
raises `TypeError`; a non-empty string yields a one-character string whose
subsequent `[...]`/`.get` then raises — in every non-list case the step as a
whole raises, modelled as `none`. -/
def pyIndex0 (j : Json) : Option Json :=
  match j with
  | .arr (a :: _) => some a
  | _ => none

/-- Python `x.get(k, default)`: requires a dict (`AttributeError`
otherwise). -/
def pyGetAttr (j : Json) (k : String) (d : Json) : Option Json :=
  match j with
  | .obj kvs => some ((lookupLast kvs k).getD d)
  | _ => none

/-- The primary path `data["choices"][0]["message"]["content"]`; any failure
is caught by the surrounding `except` and falls back. -/
def primaryContent (d : Json) : Option Json := do
  let cs ← pySubscript d "choices"
  let c0 ← pyIndex0 cs
  let m ← pySubscript c0 "message"
  pySubscript m "content"

/-- The fallback path with `.get` defaults; a failure here is an uncaught
exception (`none`). -/
def fallbackContent (d : Json) : Option Json := do
  let choices ← pyGetAttr d "choices" (Json.arr [Json.obj []])
  let c0 ← pyIndex0 choices
  let msgs ← pyGetAttr c0 "messages" (Json.arr [Json.obj []])
  let m0 ← pyIndex0 msgs
  pyGetAttr m0 "content" (Json.str "")

/-- The whole content-location step: primary path, falling back on any
exception; `none` means an exception escapes the step. -/
def extractContent (d : Json) : Option Json :=
  match primaryContent d with
  | some c => some c
  | none => fallbackContent d

/-!  Serialization of records into "the expected JSON array shape" of the
round-trip property (spec §8).  This definition follows the spec's words, not
the source (the source never serializes records): a compact JSON array of
objects with fields `name` and `linkedin_url`. -/

def serializeRecord (r : CompanyRecord) : String :=
  "\x7b\"name\":\"" ++ r.name ++ "\",\"linkedin_url\":\"" ++ r.linkedin_url ++ "\"\x7d"

def serializeItems : List CompanyRecord → String
  | [] => ""
  | [r] => serializeRecord r
  | r :: s :: rest => serializeRecord r ++ "," ++ serializeItems (s :: rest)

def serializeRecords (l : List CompanyRecord) : String :=
  "[" ++ serializeItems l ++ "]"

/-- A string is JSON-safe when serializing it between plain quotes parses
back unchanged: no quote, no backslash, no raw control character. -/
def jsonSafeStr (s : String) : Prop :=
  ∀ c ∈ s.toList, c ≠ '"' ∧ c ≠ '\\' ∧ 32 ≤ c.toNat

instance (s : String) : Decidable (jsonSafeStr s) :=
  List.decidableBAll _ s.toList

/-!  ## Basic lemmas about the string helpers -/

lemma toList_append (s t : String) : (s ++ t).toList = s.toList ++ t.toList := by
  simp [String.toList, String.data_append]

lemma mk_toList (s : String) : String.mk s.toList = s := by
  cases s
  rfl

lemma toList_mk (l : List Char) : (String.mk l).toList = l := rfl

lemma ne_empty_of_toList_cons {s : String} {c : Char} {l : List Char}
    (h : s.toList = c :: l) : s ≠ "" := by
  intro he
  rw [he] at h
  exact List.cons_ne_nil _ _ h.symm

lemma notMem_cutBefore (c : Char) (s : String) : c ∉ (cutBefore c s).toList := by
  intro hmem
  have := List.mem_takeWhile_imp (p := fun x => x ≠ c) hmem
  simp at this

lemma mem_of_mem_cutBefore {x c : Char} {s : String}
    (h : x ∈ (cutBefore c s).toList) : x ∈ s.toList :=
  (List.takeWhile_sublist _).subset h

lemma cutBefore_eq_self {c : Char} {s : String} (h : c ∉ s.toList) :
    cutBefore c s = s := by
  unfold cutBefore
  rw [List.takeWhile_eq_self_iff.mpr, mk_toList]
  intro x hx
  simp only [decide_eq_true_eq]
  intro hxc
  exact h (hxc ▸ hx)

/-!  ## Lemmas about the dedup loop (source lines 153-159) -/

lemma dedupeGo_sublist (seen : List String) (l : List CompanyRecord) :
    (dedupeGo seen l).Sublist l := by
  induction l generalizing seen with
  | nil => simp [dedupeGo]
  | cons r rest ih =>
    unfold dedupeGo
    by_cases h : r.linkedin_url ∈ seen
    · simp only [h, if_true]
      exact (ih seen).trans (List.sublist_cons_self r rest)
    · simp only [h, if_false]
      exact (ih (r.linkedin_url :: seen)).cons₂ r

lemma url_notMem_seen_of_mem_dedupeGo {seen : List String} {l : List CompanyRecord}
    {r : CompanyRecord} (h : r ∈ dedupeGo seen l) : r.linkedin_url ∉ seen := by
  induction l generalizing seen with
  | nil => simp [dedupeGo] at h
  | cons x rest ih =>
    unfold dedupeGo at h
    by_cases hx : x.linkedin_url ∈ seen
    · simp only [hx, if_true] at h
      exact ih h
    · simp only [hx, if_false] at h
      rcases List.mem_cons.mp h with rfl | hmem
      · exact hx
      · have := ih hmem
        intro hc
        exact this (List.mem_cons_of_mem _ hc)

lemma dedupeGo_pairwise (seen : List String) (l : List CompanyRecord) :
    (dedupeGo seen l).Pairwise (fun a b => a.linkedin_url ≠ b.linkedin_url) := by
  induction l generalizing seen with
  | nil => simp [dedupeGo]
  | cons r rest ih =>
    unfold dedupeGo
    by_cases h : r.linkedin_url ∈ seen
    · simp only [h, if_true]
      exact ih seen
    · simp only [h, if_false]
      refine List.Pairwise.cons ?_ (ih _)
      intro b hb hurl
      have := url_notMem_seen_of_mem_dedupeGo hb
      exact this (hurl ▸ List.mem_cons_self _ _)

lemma dedupeGo_find? (seen : List String) (l : List CompanyRecord) (u : String)
    (h : u ∉ seen) :
    (dedupeGo seen l).find? (fun r => r.linkedin_url == u) =
      l.find? (fun r => r.linkedin_url == u) := by
  induction l generalizing seen with
  | nil => simp [dedupeGo]
  | cons r rest ih =>
    unfold dedupeGo
    by_cases hr : r.linkedin_url ∈ seen
    · have hne : (r.linkedin_url == u) = false := by
        simp only [beq_eq_false_iff_ne]
        intro he
        exact h (he ▸ hr)
      simp only [hr, if_true]
      rw [ih seen h]
      simp only [List.find?, hne]
    · simp only [hr, if_false]
      cases hb : (r.linkedin_url == u) with
      | true => simp only [List.find?, hb]
      | false =>
        simp only [List.find?, hb]
        have hu : r.linkedin_url ≠ u := by simpa [beq_eq_false_iff_ne] using hb
        exact ih _ (by simp [h, Ne.symm hu])

lemma dedupeGo_eq_self {seen : List String} {l : List CompanyRecord}
    (hseen : ∀ r ∈ l, r.linkedin_url ∉ seen)
    (hp : l.Pairwise (fun a b => a.linkedin_url ≠ b.linkedin_url)) :
    dedupeGo seen l = l := by
  induction l generalizing seen with
  | nil => rfl
  | cons r rest ih =>
    unfold dedupeGo
    have hr : r.linkedin_url ∉ seen := hseen r (List.mem_cons_self _ _)
    simp only [hr, if_false]
    congr 1
    refine ih ?_ (List.Pairwise.of_cons hp)
    intro x hx
    simp only [List.mem_cons, not_or]
    exact ⟨fun he => (List.pairwise_cons.mp hp).1 x hx he.symm, hseen x (List.mem_cons_of_mem _ hx)⟩

/-!  ## Lemmas about `normalizedRows` -/

lemma normalizedRows_of_loads_none {s : String}
    (h : json_loads (candidateOf s) = none) : normalizedRows s = [] := by
  unfold normalizedRows
  by_cases hs : s = ""
  · simp [hs]
  · simp [hs, h]

lemma normalizedRows_of_not_arr {s : String} {v : Json}
    (h : json_loads (candidateOf s) = some v) (hv : isJArr v = false) :
    normalizedRows s = [] := by
  unfold normalizedRows
  by_cases hs : s = ""
  · simp [hs]
  · cases v with
    | arr items => simp [isJArr] at hv
    | null => simp [hs, h]
    | bool b => simp [hs, h]
    | int n => simp [hs, h]
    | float lx => simp [hs, h]
    | str t => simp [hs, h]
    | obj kvs => simp [hs, h]

lemma normalizedRows_of_not_all_obj {s : String} {items : List Json}
    (h : json_loads (candidateOf s) = some (Json.arr items))
    (hobj : items.all isJObj = false) : normalizedRows s = [] := by
  unfold normalizedRows
  by_cases hs : s = ""
  · simp [hs]
  · simp [hs, h, hobj]

lemma normalizedRows_of_all_obj {s : String} {items : List Json}
    (hs : s ≠ "")
    (h : json_loads (candidateOf s) = some (Json.arr items))
    (hobj : items.all isJObj = true) :
    normalizedRows s = items.filterMap mkRow := by
  unfold normalizedRows
  simp [hs, h, hobj]

/-!  ## Claim C1 -/

/-- Claim C1: `extractRecords` is total (it is a Lean function) and returns
the empty list whenever the input is empty, the candidate span fails to
parse, the parsed document is not an array, or the array has a non-object
element; in particular on `""` and on `"not json at all"`. -/
theorem claim1_fail_soft :
    extract_json_array "" = [] ∧
    extract_json_array "not json at all" = [] ∧
    (∀ s, json_loads (candidateOf s) = none → extract_json_array s = []) ∧
    (∀ s v, json_loads (candidateOf s) = some v → isJArr v = false →
      extract_json_array s = []) ∧
    (∀ s items, json_loads (candidateOf s) = some (Json.arr items) →
      items.all isJObj = false → extract_json_array s = []) := by
  refine ⟨by decide, by decide, ?_, ?_, ?_⟩
  · intro s h
    show dedupe (normalizedRows s) = []
    rw [normalizedRows_of_loads_none h]
    rfl
  · intro s v h hv
    show dedupe (normalizedRows s) = []
    rw [normalizedRows_of_not_arr h hv]
    rfl
  · intro s items h hobj
    show dedupe (normalizedRows s) = []
    rw [normalizedRows_of_not_all_obj h hobj]
    rfl

/-- Witness for C1: the clause for a parse result that is not an array,
applied at the concrete input `"42"`. -/
theorem claim1_fail_soft_inst : extract_json_array "42" = [] :=
  claim1_fail_soft.2.2.2.1 "42" (Json.int 42) rfl rfl

/-!  ## Claim C2 -/

/-- Counterexample to C2: one non-object element (`1`) makes the whole
extraction return `[]`, even though the object element alone would be kept —
the code does not skip non-object elements individually. -/
theorem claim2_nonobject_cex :
    extract_json_array "[1,\x7b\"name\":\"A\",\"linkedin_url\":\"u/company/v\"\x7d]" = [] ∧
    extract_json_array "[\x7b\"name\":\"A\",\"linkedin_url\":\"u/company/v\"\x7d]" =
      [⟨"A", "u/company/v"⟩] :=
  ⟨by decide, by decide⟩

/-- Claim C2 as amended: if any element of the successfully parsed array is
not an object, the entire extraction returns the empty list (the
`item.get` attribute error aborts the loop and the handler returns `[]`);
only missing fields inside object elements are tolerated. -/
theorem claim2_nonobject_amended :
    ∀ s items j, json_loads (candidateOf s) = some (Json.arr items) → j ∈ items →
      isJObj j = false → extract_json_array s = [] := by
  intro s items j h hmem hobj
  have hall : items.all isJObj = false := by
    rw [List.all_eq_false]
    exact ⟨j, hmem, by simp [hobj]⟩
  show dedupe (normalizedRows s) = []
  rw [normalizedRows_of_not_all_obj h hall]
  rfl

/-- Witness for the amended C2, at the concrete mixed array. -/
theorem claim2_nonobject_inst :
    extract_json_array "[1,\x7b\"name\":\"A\",\"linkedin_url\":\"u/company/v\"\x7d]" = [] :=
  claim2_nonobject_amended _
    [Json.int 1, Json.obj [("name", Json.str "A"), ("linkedin_url", Json.str "u/company/v")]]
    (Json.int 1) rfl (List.mem_cons_self _ _) rfl

/-!  ## Claim C4 -/

/-- Claim C4: an element is kept exactly when its coerced-and-trimmed name is
non-empty, its coerced-and-trimmed url is non-empty and the url contains
`/company/`; a kept record carries that name and the url truncated at the
first `?` and then at the first `#`; the Acme example extracts with the query
string stripped. -/
theorem claim4_keep_iff :
    (∀ j : Json, (mkRow j).isSome = true ↔
      (nameOf j ≠ "" ∧ urlOf j ≠ "" ∧ containsSub "/company/" (urlOf j) = true)) ∧
    (∀ j r, mkRow j = some r → r.name = nameOf j ∧
      r.linkedin_url = cutBefore '#' (cutBefore '?' (urlOf j))) ∧
    extract_json_array
        "[\x7b\"name\":\"Acme\",\"linkedin_url\":\"https://www.linkedin.com/company/acme?x=1\"\x7d]" =
      [⟨"Acme", "https://www.linkedin.com/company/acme"⟩] := by
  refine ⟨?_, ?_, by decide⟩
  · intro j
    unfold mkRow
    by_cases h : nameOf j ≠ "" ∧ urlOf j ≠ "" ∧ containsSub "/company/" (urlOf j) = true
    · rw [if_pos h]
      simp [h]
    · rw [if_neg h]
      simp [h]
  · intro j r hr
    unfold mkRow at hr
    split at hr
    · obtain rfl := Option.some_inj.mp hr
      exact ⟨rfl, rfl⟩
    · cases hr

/-- Witness for C4: the kept-record clause applied at a concrete element with
both a query string and a fragment. -/
theorem claim4_keep_iff_inst :
    (⟨"A", "u/company/x"⟩ : CompanyRecord).name =
      nameOf (Json.obj [("name", Json.str "A"), ("linkedin_url", Json.str "u/company/x?q#f")]) ∧
    (⟨"A", "u/company/x"⟩ : CompanyRecord).linkedin_url =
      cutBefore '#' (cutBefore '?'
        (urlOf (Json.obj [("name", Json.str "A"), ("linkedin_url", Json.str "u/company/x?q#f")]))) :=
  claim4_keep_iff.2.1 _ ⟨"A", "u/company/x"⟩ rfl

/-!  ## Claim C5 -/

/-- Claim C5: results have pairwise-distinct urls; the result is a sublist of
the pre-dedup rows (so relative order is preserved); for every url the
retained representative is the first-occurring row with that url; and in the
concrete `#a`/`#b` example exactly the first record survives. -/
theorem claim5_dedup :
    (∀ s, (extract_json_array s).Pairwise
      (fun a b => a.linkedin_url ≠ b.linkedin_url)) ∧
    (∀ s, (extract_json_array s).Sublist (normalizedRows s)) ∧
    (∀ s u, (extract_json_array s).find? (fun r => r.linkedin_url == u) =
      (normalizedRows s).find? (fun r => r.linkedin_url == u)) ∧
    extract_json_array
        "[\x7b\"name\":\"A\",\"linkedin_url\":\"https://l/company/x#a\"\x7d,\x7b\"name\":\"B\",\"linkedin_url\":\"https://l/company/x#b\"\x7d]" =
      [⟨"A", "https://l/company/x"⟩] := by
  exact ⟨fun s => dedupeGo_pairwise [] _, fun s => dedupeGo_sublist [] _,
    fun s u => dedupeGo_find? [] _ u (by simp), by decide⟩

/-!  ## Claim C6 -/

/-- Counterexample to C6: a `?` before the marker lets the element pass the
`/company/` test, but the stored url is truncated at that `?` and no longer
contains the marker. -/
theorem claim6_marker_cex :
    extract_json_array "[\x7b\"name\":\"X\",\"linkedin_url\":\"a?/company/b\"\x7d]" =
      [⟨"X", "a"⟩] ∧
    containsSub "/company/" "a" = false :=
  ⟨by decide, by decide⟩

/-- Claim C6 as amended: every stored url contains neither `?` nor `#`, and
the `/company/` marker is guaranteed only of the pre-truncation url the
element was tested on, not of the stored url. -/
theorem claim6_url_clean :
    ∀ s r, r ∈ extract_json_array s →
      '?' ∉ r.linkedin_url.toList ∧ '#' ∉ r.linkedin_url.toList ∧
      ∃ j, mkRow j = some r ∧ containsSub "/company/" (urlOf j) = true := by
  intro s r hmem
  have hrows : r ∈ normalizedRows s := (dedupeGo_sublist [] _).subset hmem
  have hex : ∃ j, mkRow j = some r := by
    unfold normalizedRows at hrows
    by_cases hs : s = ""
    · simp [hs] at hrows
    · simp only [hs, if_false] at hrows
      cases hload : json_loads (candidateOf s) with
      | none => rw [hload] at hrows; simp at hrows
      | some v =>
        rw [hload] at hrows
        cases v with
        | arr items =>
          by_cases hobj : items.all isJObj = true
          · simp only [hobj, if_true] at hrows
            obtain ⟨j, _, hj⟩ := List.mem_filterMap.mp hrows
            exact ⟨j, hj⟩
          · rw [Bool.not_eq_true] at hobj
            simp [hobj] at hrows
        | null => simp at hrows
        | bool b => simp at hrows
        | int n => simp at hrows
        | float lx => simp at hrows
        | str t => simp at hrows
        | obj kvs => simp at hrows
  obtain ⟨j, hj⟩ := hex
  have hcond : containsSub "/company/" (urlOf j) = true ∧
      r = ⟨nameOf j, cutBefore '#' (cutBefore '?' (urlOf j))⟩ := by
    unfold mkRow at hj
    split at hj
    case isTrue h => exact ⟨h.2.2, (Option.some_inj.mp hj).symm⟩
    case isFalse => cases hj
  obtain ⟨hmark, hreq⟩ := hcond
  subst hreq
  exact ⟨fun hq => notMem_cutBefore '?' _ (mem_of_mem_cutBefore hq),
    notMem_cutBefore '#' _, j, hj, hmark⟩

/-- Witness for the amended C6, at the Acme-with-query input. -/
theorem claim6_url_clean_inst :
    '?' ∉ ("https://www.linkedin.com/company/acme" : String).toList ∧
    '#' ∉ ("https://www.linkedin.com/company/acme" : String).toList ∧
    ∃ j, mkRow j = some ⟨"Acme", "https://www.linkedin.com/company/acme"⟩ ∧
      containsSub "/company/" (urlOf j) = true :=
  claim6_url_clean
    "[\x7b\"name\":\"Acme\",\"linkedin_url\":\"https://www.linkedin.com/company/acme?x=1\"\x7d]"
    ⟨"Acme", "https://www.linkedin.com/company/acme"⟩ (by decide)

/-!  ## Claim C8 -/

/-- Counterexample to C8: with all fields empty or default there are three
empty string fields (keywords, location, startsWith) but the prompt does not
contain three occurrences of "N/A". -/
theorem claim8_na_cex :
    countSub "N/A" (build_user_prompt "" "" "any" "" 50) ≠ 3 := by decide

/-- Claim C8 as amended: at the all-empty/default filters the prompt contains
"N/A" exactly twice (for the empty keywords and location); the empty
startsWith renders as `any`, the default size appears verbatim as `any`, and
the configured max-result count appears. -/
theorem claim8_na_amended :
    countSub "N/A" (build_user_prompt "" "" "any" "" 50) = 2 ∧
    containsSub "up to 50" (build_user_prompt "" "" "any" "" 50) = true ∧
    containsSub "- Company name starts with: any" (build_user_prompt "" "" "any" "" 50) = true ∧
    containsSub "- Company size (use LinkedIn size tag when visible): any"
      (build_user_prompt "" "" "any" "" 50) = true :=
  ⟨by decide, by decide, by decide, by decide⟩

/-!  ## Claim C9 -/

/-- Counterexample to C9: an empty `choices` list resolves neither path, yet
the step raises (the fallback indexes `[0]` into the empty list) instead of
evaluating to the empty string. -/
theorem claim9_content_cex :
    extractContent (Json.obj [("choices", Json.arr [])]) = none := rfl

/-- Claim C9 as amended: the step tries `choices[0].message.content` and then
`choices[0].messages[0].content`; a missing `choices` key (or missing inner
fields along the fallback's dict path) yields the empty string, but a present
`choices` that is an empty list raises past the step. -/
theorem claim9_content_amended :
    (∀ d c, primaryContent d = some c → extractContent d = some c) ∧
    (∀ kvs, lookupLast kvs "choices" = none →
      extractContent (Json.obj kvs) = some (Json.str "")) ∧
    extractContent (Json.obj [("choices", Json.arr [Json.obj []])]) = some (Json.str "") ∧
    extractContent (Json.obj [("choices", Json.arr [])]) = none := by
  refine ⟨?_, ?_, rfl, rfl⟩
  · intro d c h
    unfold extractContent
    rw [h]
  · intro kvs h
    unfold extractContent primaryContent fallbackContent
    simp [pySubscript, pyGetAttr, pyIndex0, lookupLast, h]

/-- Witness for the amended C9: a body without a `choices` key. -/
theorem claim9_content_inst : extractContent (Json.obj []) = some (Json.str "") :=
  claim9_content_amended.2.1 [] rfl

/-!  ## Claim C10 -/

/-- Claim C10: a JSON `null` field is coerced by `str()` to the string
"None": an element with null name and a valid company url is kept with name
"None", while a null url is dropped because "None" lacks the marker, not
because it is empty. -/
theorem claim10_null_coercion :
    pyStr Json.null = "None" ∧
    extract_json_array "[\x7b\"name\":null,\"linkedin_url\":\"https://w/company/a\"\x7d]" =
      [⟨"None", "https://w/company/a"⟩] ∧
    extract_json_array "[\x7b\"name\":\"A\",\"linkedin_url\":null\x7d]" = [] ∧
    containsSub "/company/" (pyStr Json.null) = false ∧
    pyStr Json.null ≠ "" :=
  ⟨rfl, by decide, by decide, by decide, by decide⟩

/-!  ## Claim C3: characterization of the regex span -/

lemma takeToLast_eq_take {c : Char} : ∀ l : List Char, c ∈ l →
    takeToLast c l = l.take (l.length - l.reverse.indexOf c) := by
  intro l
  induction l with
  | nil => intro h; simp at h
  | cons x t ih =>
    intro h
    unfold takeToLast
    by_cases ht : c ∈ t
    · simp only [ht, if_true]
      rw [ih ht]
      have hrev : (x :: t).reverse.indexOf c = t.reverse.indexOf c := by
        rw [List.reverse_cons, List.indexOf_append_of_mem (List.mem_reverse.mpr ht)]
      have hlt : t.reverse.indexOf c < t.length := by
        simpa using List.indexOf_lt_length.mpr (List.mem_reverse.mpr ht)
      rw [hrev]
      have harith : (x :: t).length - t.reverse.indexOf c =
          (t.length - t.reverse.indexOf c) + 1 := by
        simp only [List.length_cons]
        omega
      rw [harith, List.take_succ_cons]
    · have hx : x = c := by
        rcases List.mem_cons.mp h with h1 | h2
        · exact h1.symm
        · exact absurd h2 ht
      simp only [ht, if_false]
      have hrev : (x :: t).reverse.indexOf c = t.length := by
        rw [List.reverse_cons, List.indexOf_append_of_not_mem (by simpa using ht), hx]
        simp [List.indexOf_cons_self]
      rw [hrev]
      have harith : (x :: t).length - t.length = 1 := by
        simp only [List.length_cons]
        omega
      rw [harith]
      simp

lemma jsonRegexSearch_spec : ∀ cs : List Char,
    (∃ i j : Nat, i < j ∧ cs[i]? = some '[' ∧ cs[j]? = some ']') →
    jsonRegexSearch cs = some ((cs.drop (cs.indexOf '[')).take
      (cs.length - cs.reverse.indexOf ']' - cs.indexOf '[')) := by
  intro cs
  induction cs with
  | nil =>
    rintro ⟨i, j, hij, hi, hj⟩
    simp at hi
  | cons c rest ih =>
    rintro ⟨i, j, hij, hi, hj⟩
    have hjrest : rest[j - 1]? = some ']' := by
      have he : j = (j - 1) + 1 := by omega
      rw [he] at hj
      simpa using hj
    have hmemr : ']' ∈ rest := List.getElem?_mem hjrest
    unfold jsonRegexSearch
    by_cases hc : c = '[' ∧ ']' ∈ rest
    · rw [if_pos hc]
      obtain ⟨hc1, hc2⟩ := hc
      subst hc1
      have hidx : ('[' :: rest).indexOf '[' = 0 := List.indexOf_cons_self _ _
      have hrev : ('[' :: rest).reverse.indexOf ']' = rest.reverse.indexOf ']' := by
        rw [List.reverse_cons, List.indexOf_append_of_mem (List.mem_reverse.mpr hc2)]
      have hlt : rest.reverse.indexOf ']' < rest.length := by
        simpa using List.indexOf_lt_length.mpr (List.mem_reverse.mpr hc2)
      rw [hidx, hrev, List.drop_zero]
      have harith : ('[' :: rest).length - rest.reverse.indexOf ']' - 0 =
          (rest.length - rest.reverse.indexOf ']') + 1 := by
        simp only [List.length_cons]
        omega
      rw [harith, List.take_succ_cons, takeToLast_eq_take rest hc2]
    · rw [if_neg hc]
      have hcne : c ≠ '[' := fun he => hc ⟨he, hmemr⟩
      have hipos : 1 ≤ i := by
        by_contra h0
        have hi0 : i = 0 := by omega
        rw [hi0] at hi
        simp only [List.getElem?_cons_zero, Option.some_inj] at hi
        exact hcne hi
      have hirest : rest[i - 1]? = some '[' := by
        have he : i = (i - 1) + 1 := by omega
        rw [he] at hi
        simpa using hi
      have hmemi : '[' ∈ rest := List.getElem?_mem hirest
      rw [ih ⟨i - 1, j - 1, by omega, hirest, hjrest⟩]
      have hidx : (c :: rest).indexOf '[' = rest.indexOf '[' + 1 :=
        List.indexOf_cons_ne _ hcne
      have hrev : (c :: rest).reverse.indexOf ']' = rest.reverse.indexOf ']' := by
        rw [List.reverse_cons, List.indexOf_append_of_mem (List.mem_reverse.mpr hmemr)]
      rw [hidx, hrev, List.drop_succ_cons]
      have harith : (c :: rest).length - rest.reverse.indexOf ']' - (rest.indexOf '[' + 1) =
          rest.length - rest.reverse.indexOf ']' - rest.indexOf '[' := by
        have hlt : rest.reverse.indexOf ']' < rest.length := by
          simpa using List.indexOf_lt_length.mpr (List.mem_reverse.mpr hmemr)
        simp only [List.length_cons]
        omega
      rw [harith]

lemma jsonRegexSearch_none : ∀ cs : List Char,
    (¬ ∃ i j : Nat, i < j ∧ cs[i]? = some '[' ∧ cs[j]? = some ']') →
    jsonRegexSearch cs = none := by
  intro cs
  induction cs with
  | nil => intro _; rfl
  | cons c rest ih =>
    intro h
    unfold jsonRegexSearch
    by_cases hc : c = '[' ∧ ']' ∈ rest
    · exfalso
      obtain ⟨hc1, hc2⟩ := hc
      obtain ⟨k, hk⟩ := List.getElem?_of_mem hc2
      exact h ⟨0, k + 1, by omega, by simp [hc1], by simpa using hk⟩
    · rw [if_neg hc]
      apply ih
      rintro ⟨i, j, hij, hi, hj⟩
      exact h ⟨i + 1, j + 1, by omega, by simpa using hi, by simpa using hj⟩

/-- Claim C3: when the input has a `[` with a `]` somewhere after it, the
candidate is exactly the substring from the leftmost `[` through the
rightmost `]` inclusive; otherwise it is the whole text stripped; and a valid
array wrapped in prose before and after is still extracted. -/
theorem claim3_candidate_span :
    (∀ cs : List Char,
      (∃ i j : Nat, i < j ∧ cs[i]? = some '[' ∧ cs[j]? = some ']') →
      jsonRegexSearch cs = some ((cs.drop (cs.indexOf '[')).take
        (cs.length - cs.reverse.indexOf ']' - cs.indexOf '['))) ∧
    (∀ s : String, (¬ ∃ i j : Nat, i < j ∧ s.toList[i]? = some '[' ∧ s.toList[j]? = some ']') →
      candidateOf s = pyStrip s) ∧
    (∀ s : String, ∀ span : List Char, jsonRegexSearch s.toList = some span →
      candidateOf s = String.mk span) ∧
    extract_json_array
        "Here you go:\n[\x7b\"name\":\"Acme\",\"linkedin_url\":\"https://www.linkedin.com/company/acme\"\x7d]\nThanks" =
      [⟨"Acme", "https://www.linkedin.com/company/acme"⟩] := by
  refine ⟨jsonRegexSearch_spec, ?_, ?_, by decide⟩
  · intro s h
    unfold candidateOf
    rw [jsonRegexSearch_none s.toList h]
  · intro s span h
    unfold candidateOf
    rw [h]

/-- Witness for C3: the span clause applied at the concrete input
`"ab[x]y[z"`, whose leftmost `[` is at index 2 and rightmost `]` at
index 4. -/
theorem claim3_candidate_span_inst :
    jsonRegexSearch ("ab[x]y[z".toList) = some ("[x]".toList) := by
  have h := claim3_candidate_span.1 ("ab[x]y[z".toList)
    ⟨2, 4, by decide, by decide, by decide⟩
  exact h.trans (by decide)

/-!  ## Claim C7: round-trip of serialized records through the extractor -/

/-- The JSON value that `json_loads` decodes a serialized record to. -/
def recordJson (r : CompanyRecord) : Json :=
  Json.obj [("name", Json.str r.name), ("linkedin_url", Json.str r.linkedin_url)]

lemma skipJsonWs_cons {c : Char} {l : List Char} (h : isJsonWs c = false) :
    skipJsonWs (c :: l) = c :: l := by
  simp [skipJsonWs, List.dropWhile_cons, h]

lemma parseStringBody_append (s rest : List Char)
    (h : ∀ c ∈ s, c ≠ '"' ∧ c ≠ '\\' ∧ 32 ≤ c.toNat) :
    parseStringBody (s ++ '"' :: rest) = some (s, rest) := by
  induction s with
  | nil =>
    rw [parseStringBody.eq_def]
    simp
  | cons c t ih =>
    obtain ⟨h1, h2, h3⟩ := h c (List.mem_cons_self _ _)
    have hlt : ¬ c.toNat < 32 := by omega
    simp only [List.cons_append]
    rw [parseStringBody.eq_def]
    simp only [if_neg h1, if_neg h2, if_neg hlt,
      ih (fun x hx => h x (List.mem_cons_of_mem _ hx))]

lemma parseVal_str (f : Nat) (s rest : List Char)
    (h : ∀ c ∈ s, c ≠ '"' ∧ c ≠ '\\' ∧ 32 ≤ c.toNat) :
    parseVal (f + 1) ('"' :: (s ++ '"' :: rest)) = some (Json.str (String.mk s), rest) := by
  rw [parseVal.eq_def]
  simp [parseStrLit, parseStringBody_append s rest h]

lemma serializeRecord_toList (r : CompanyRecord) (rest : List Char) :
    (serializeRecord r).toList ++ rest =
      '\x7b' :: '"' :: 'n' :: 'a' :: 'm' :: 'e' :: '"' :: ':' :: '"' ::
        (r.name.toList ++ '"' :: ',' :: '"' :: 'l' :: 'i' :: 'n' :: 'k' :: 'e' :: 'd' ::
          'i' :: 'n' :: '_' :: 'u' :: 'r' :: 'l' :: '"' :: ':' :: '"' ::
            (r.linkedin_url.toList ++ '"' :: '\x7d' :: rest)) := by
  have e1 : ("\x7b\"name\":\"" : String).toList =
      ['\x7b', '"', 'n', 'a', 'm', 'e', '"', ':', '"'] := rfl
  have e2 : ("\",\"linkedin_url\":\"" : String).toList =
      ['"', ',', '"', 'l', 'i', 'n', 'k', 'e', 'd', 'i', 'n', '_', 'u', 'r', 'l', '"', ':', '"'] := rfl
  have e3 : ("\"\x7d" : String).toList = ['"', '\x7d'] := rfl
  simp [serializeRecord, toList_append, e1, e2, e3]
set_option maxHeartbeats 1000000 in
lemma parseVal_record (f : Nat) (r : CompanyRecord) (rest : List Char)
    (hn : ∀ c ∈ r.name.toList, c ≠ '"' ∧ c ≠ '\\' ∧ 32 ≤ c.toNat)
    (hu : ∀ c ∈ r.linkedin_url.toList, c ≠ '"' ∧ c ≠ '\\' ∧ 32 ≤ c.toNat) :
    parseVal (f + 10) ((serializeRecord r).toList ++ rest) = some (recordJson r, rest) := by
  rw [serializeRecord_toList]
  rw [show f + 10 = (f + 9) + 1 from rfl, parseVal.eq_def]
  simp only [reduceIte, Char.reduceEq]
  rw [skipJsonWs_cons (by decide)]
  rw [show f + 9 = (f + 8) + 1 from rfl, parseObjBody.eq_def]
  simp only [reduceIte, Char.reduceEq]
  rw [show f + 8 = (f + 7) + 1 from rfl, parseObjMembers.eq_def]
  simp only [reduceIte, Char.reduceEq]
  have hk1 := parseStringBody_append ['n', 'a', 'm', 'e']
    (':' :: '"' :: (r.name.toList ++ '"' :: ',' :: '"' :: 'l' :: 'i' :: 'n' :: 'k' :: 'e' :: 'd' ::
      'i' :: 'n' :: '_' :: 'u' :: 'r' :: 'l' :: '"' :: ':' :: '"' ::
        (r.linkedin_url.toList ++ '"' :: '\x7d' :: rest))) (by decide)
  simp only [List.cons_append, List.nil_append] at hk1
  rw [hk1]
  simp only []
  rw [skipJsonWs_cons (by decide)]
  rw [show f + 7 = (f + 6) + 1 from rfl, parseObjColon.eq_def]
  simp only [reduceIte, Char.reduceEq]
  rw [skipJsonWs_cons (by decide)]
  rw [show f + 6 = (f + 5) + 1 from rfl]
  rw [parseVal_str (f + 5) r.name.toList _ hn]
  simp only [mk_toList]
  rw [skipJsonWs_cons (by decide)]
  rw [parseObjSep.eq_def]
  simp only [reduceIte, Char.reduceEq]
  rw [skipJsonWs_cons (by decide)]
  rw [show f + 5 = (f + 4) + 1 from rfl, parseObjMembers.eq_def]
  simp only [reduceIte, Char.reduceEq]
  have hk2 := parseStringBody_append ['l', 'i', 'n', 'k', 'e', 'd', 'i', 'n', '_', 'u', 'r', 'l']
    (':' :: '"' :: (r.linkedin_url.toList ++ '"' :: '\x7d' :: rest)) (by decide)
  simp only [List.cons_append, List.nil_append] at hk2
  rw [hk2]
  simp only []
  rw [skipJsonWs_cons (by decide)]
  rw [show f + 4 = (f + 3) + 1 from rfl, parseObjColon.eq_def]
  simp only [reduceIte, Char.reduceEq]
  rw [skipJsonWs_cons (by decide)]
  rw [show f + 3 = (f + 2) + 1 from rfl]
  rw [parseVal_str (f + 2) r.linkedin_url.toList _ hu]
  simp only [mk_toList]
  rw [skipJsonWs_cons (by decide)]
  rw [parseObjSep.eq_def]
  simp only [reduceIte, Char.reduceEq]
  rfl

lemma serializeRecord_head (s : CompanyRecord) :
    ∃ tl, (serializeRecord s).toList = '\x7b' :: tl := by
  have h := serializeRecord_toList s []
  rw [List.append_nil] at h
  exact ⟨_, h⟩

lemma serializeItems_head (s : CompanyRecord) (t : List CompanyRecord) :
    ∃ tl, (serializeItems (s :: t)).toList = '\x7b' :: tl := by
  cases t with
  | nil =>
    obtain ⟨tl, htl⟩ := serializeRecord_head s
    exact ⟨tl, htl⟩
  | cons u t3 =>
    obtain ⟨tl, htl⟩ := serializeRecord_head s
    refine ⟨tl ++ ("," ++ serializeItems (u :: t3)).toList, ?_⟩
    rw [show serializeItems (s :: u :: t3) =
      serializeRecord s ++ "," ++ serializeItems (u :: t3) from rfl]
    rw [toList_append, toList_append, htl]
    simp [toList_append]

set_option maxHeartbeats 1000000 in
lemma parseArrElems_records : ∀ (l : List CompanyRecord) (f : Nat) (rest : List Char),
    l ≠ [] →
    (∀ r ∈ l, (∀ c ∈ r.name.toList, c ≠ '"' ∧ c ≠ '\\' ∧ 32 ≤ c.toNat) ∧
      (∀ c ∈ r.linkedin_url.toList, c ≠ '"' ∧ c ≠ '\\' ∧ 32 ≤ c.toNat)) →
    parseArrElems (f + 2 * l.length + 9) ((serializeItems l).toList ++ ']' :: rest) =
      some (l.map recordJson, rest) := by
  intro l
  induction l with
  | nil => intro f rest hne _; exact absurd rfl hne
  | cons r t ih =>
    intro f rest _ hsafe
    obtain ⟨hn, hu⟩ := hsafe r (List.mem_cons_self _ _)
    cases t with
    | nil =>
      show parseArrElems (f + 2 * 1 + 9) ((serializeRecord r).toList ++ ']' :: rest) = _
      rw [show f + 2 * 1 + 9 = (f + 10) + 1 from by omega, parseArrElems.eq_def]
      simp only []
      rw [parseVal_record f r (']' :: rest) hn hu]
      simp only []
      rw [skipJsonWs_cons (by decide)]
      rw [show f + 10 = (f + 9) + 1 from rfl, parseArrSep.eq_def]
      simp only [reduceIte, Char.reduceEq]
      rfl
    | cons s t2 =>
      have hsplit : (serializeItems (r :: s :: t2)).toList ++ ']' :: rest =
          (serializeRecord r).toList ++
            ',' :: ((serializeItems (s :: t2)).toList ++ ']' :: rest) := by
        rw [show serializeItems (r :: s :: t2) =
          serializeRecord r ++ "," ++ serializeItems (s :: t2) from rfl]
        simp [toList_append]
      rw [show f + 2 * (r :: s :: t2).length + 9 =
        ((f + 2 * (s :: t2).length) + 10) + 1 from by simp [List.length_cons]; omega]
      rw [hsplit, parseArrElems.eq_def]
      simp only []
      rw [parseVal_record (f + 2 * (s :: t2).length) r _ hn hu]
      simp only []
      rw [skipJsonWs_cons (by decide)]
      rw [show (f + 2 * (s :: t2).length) + 10 = ((f + 2 * (s :: t2).length) + 9) + 1 from rfl,
        parseArrSep.eq_def]
      simp only [reduceIte, Char.reduceEq]
      obtain ⟨tl, htl⟩ := serializeItems_head s t2
      have hform : (serializeItems (s :: t2)).toList ++ ']' :: rest =
          '\x7b' :: (tl ++ ']' :: rest) := by
        rw [htl]
        simp
      rw [hform, skipJsonWs_cons (by decide), ← hform]
      rw [ih f rest (by simp) (fun x hx => hsafe x (List.mem_cons_of_mem _ hx))]
      rfl

lemma serializeRecords_toList (l : List CompanyRecord) :
    (serializeRecords l).toList = '[' :: ((serializeItems l).toList ++ [']']) := by
  have e1 : ("[" : String).toList = ['['] := rfl
  have e2 : ("]" : String).toList = [']'] := rfl
  rw [serializeRecords, toList_append, toList_append, e1, e2]
  rfl

lemma serializeItems_length (l : List CompanyRecord) :
    l.length ≤ (serializeItems l).toList.length := by
  induction l with
  | nil => simp [serializeItems]
  | cons r t ih =>
    cases t with
    | nil =>
      obtain ⟨tl, htl⟩ := serializeRecord_head r
      show 1 ≤ (serializeRecord r).toList.length
      rw [htl]
      simp
    | cons s t2 =>
      rw [show serializeItems (r :: s :: t2) =
        serializeRecord r ++ "," ++ serializeItems (s :: t2) from rfl]
      rw [toList_append, toList_append]
      simp only [List.length_append, List.length_cons]
      have h1 : ("," : String).toList.length = 1 := rfl
      simp only [List.length_cons] at ih
      omega

lemma serializeRecords_length (l : List CompanyRecord) :
    l.length + 2 ≤ (serializeRecords l).toList.length := by
  rw [serializeRecords_toList]
  have h := serializeItems_length l
  simp only [List.length_cons, List.length_append, List.length_nil]
  omega

set_option maxHeartbeats 1000000 in
lemma parseVal_records (l : List CompanyRecord) (f : Nat)
    (hsafe : ∀ r ∈ l, (∀ c ∈ r.name.toList, c ≠ '"' ∧ c ≠ '\\' ∧ 32 ≤ c.toNat) ∧
      (∀ c ∈ r.linkedin_url.toList, c ≠ '"' ∧ c ≠ '\\' ∧ 32 ≤ c.toNat)) :
    parseVal (f + 2 * l.length + 11) ((serializeRecords l).toList) =
      some (Json.arr (l.map recordJson), []) := by
  rw [serializeRecords_toList]
  rw [show f + 2 * l.length + 11 = (f + 2 * l.length + 10) + 1 from rfl, parseVal.eq_def]
  simp only [reduceIte, Char.reduceEq]
  cases l with
  | nil =>
    rw [show (serializeItems ([] : List CompanyRecord)).toList = [] from rfl]
    simp only [List.nil_append]
    rw [skipJsonWs_cons (by decide)]
    rw [show f + 2 * List.length ([] : List CompanyRecord) + 10 =
      (f + 2 * List.length ([] : List CompanyRecord) + 9) + 1 from rfl, parseArrBody.eq_def]
    simp only [reduceIte, Char.reduceEq]
    rfl
  | cons s t =>
    obtain ⟨tl, htl⟩ := serializeItems_head s t
    have hform : (serializeItems (s :: t)).toList ++ [']'] = '\x7b' :: (tl ++ [']']) := by
      rw [htl]
      simp
    rw [hform, skipJsonWs_cons (by decide)]
    rw [show f + 2 * (s :: t).length + 10 = (f + 2 * (s :: t).length + 9) + 1 from rfl,
      parseArrBody.eq_def]
    simp only [reduceIte, Char.reduceEq]
    rw [← hform]
    rw [show (serializeItems (s :: t)).toList ++ [']'] =
      (serializeItems (s :: t)).toList ++ ']' :: [] from rfl]
    rw [parseArrElems_records (s :: t) f [] (by simp) hsafe]

lemma json_loads_serializeRecords (l : List CompanyRecord)
    (hsafe : ∀ r ∈ l, (∀ c ∈ r.name.toList, c ≠ '"' ∧ c ≠ '\\' ∧ 32 ≤ c.toNat) ∧
      (∀ c ∈ r.linkedin_url.toList, c ≠ '"' ∧ c ≠ '\\' ∧ 32 ≤ c.toNat)) :
    json_loads (serializeRecords l) = some (Json.arr (l.map recordJson)) := by
  have hcs : skipJsonWs (serializeRecords l).toList = (serializeRecords l).toList := by
    rw [serializeRecords_toList]
    exact skipJsonWs_cons (by decide)
  have hlen := serializeRecords_length l
  show (match parseVal (4 * (skipJsonWs (serializeRecords l).toList).length + 4)
      (skipJsonWs (serializeRecords l).toList) with
    | some (v, r) => if skipJsonWs r = [] then some v else none
    | none => none) = some (Json.arr (l.map recordJson))
  rw [hcs]
  rw [show 4 * (serializeRecords l).toList.length + 4 =
    (4 * (serializeRecords l).toList.length + 4 - (2 * l.length + 11)) + 2 * l.length + 11
    from by omega]
  rw [parseVal_records l _ hsafe]
  rfl

lemma takeToLast_concat (c : Char) : ∀ xs : List Char, takeToLast c (xs ++ [c]) = xs ++ [c] := by
  intro xs
  induction xs with
  | nil => simp [takeToLast]
  | cons x t ih =>
    simp only [List.cons_append]
    unfold takeToLast
    rw [if_pos (by simp), ih]

lemma candidateOf_serializeRecords (l : List CompanyRecord) :
    candidateOf (serializeRecords l) = serializeRecords l := by
  unfold candidateOf
  rw [serializeRecords_toList]
  unfold jsonRegexSearch
  rw [if_pos ⟨rfl, by simp⟩]
  rw [takeToLast_concat ']' ((serializeItems l).toList)]
  rw [← serializeRecords_toList]
  show String.mk (serializeRecords l).toList = serializeRecords l
  exact mk_toList _

lemma mkRow_recordJson (r : CompanyRecord)
    (hname : r.name ≠ "") (hstripn : pyStrip r.name = r.name)
    (hmark : containsSub "/company/" r.linkedin_url = true)
    (hstripu : pyStrip r.linkedin_url = r.linkedin_url)
    (hq : '?' ∉ r.linkedin_url.toList) (hh : '#' ∉ r.linkedin_url.toList) :
    mkRow (recordJson r) = some r := by
  have hn' : nameOf (recordJson r) = r.name := by
    show pyStrip (pyStr (pyGetD (recordJson r) "name" (Json.str ""))) = r.name
    rw [show pyGetD (recordJson r) "name" (Json.str "") = Json.str r.name from rfl]
    rw [show pyStr (Json.str r.name) = r.name from rfl]
    exact hstripn
  have hu' : urlOf (recordJson r) = r.linkedin_url := by
    show pyStrip (pyStr (pyGetD (recordJson r) "linkedin_url" (Json.str ""))) = r.linkedin_url
    rw [show pyGetD (recordJson r) "linkedin_url" (Json.str "") =
      Json.str r.linkedin_url from rfl]
    rw [show pyStr (Json.str r.linkedin_url) = r.linkedin_url from rfl]
    exact hstripu
  have hne : r.linkedin_url ≠ "" := by
    intro he
    rw [he] at hmark
    exact absurd hmark (by decide)
  unfold mkRow
  rw [hn', hu', if_pos ⟨hname, hne, hmark⟩, cutBefore_eq_self hq, cutBefore_eq_self hh]

lemma filterMap_mkRow_map (l : List CompanyRecord)
    (h : ∀ r ∈ l, mkRow (recordJson r) = some r) :
    (l.map recordJson).filterMap mkRow = l := by
  induction l with
  | nil => rfl
  | cons r t ih =>
    simp only [List.map_cons, List.filterMap_cons, h r (List.mem_cons_self _ _)]
    rw [ih (fun x hx => h x (List.mem_cons_of_mem _ hx))]

lemma all_isJObj_map (l : List CompanyRecord) : (l.map recordJson).all isJObj = true := by
  rw [List.all_eq_true]
  intro x hx
  obtain ⟨r, _, rfl⟩ := List.mem_map.mp hx
  rfl

/-- Counterexample to C7: a record whose name carries a trailing space is a
valid CompanyRecord for the claim (non-empty name, marker present, url free
of `?`/`#`), yet the round trip returns it with the name trimmed, so the
output differs from the input. -/
theorem claim7_roundtrip_cex :
    extract_json_array
        (serializeRecords [⟨"Acme ", "https://www.linkedin.com/company/acme"⟩]) =
      [⟨"Acme", "https://www.linkedin.com/company/acme"⟩] ∧
    ("Acme " : String) ≠ "Acme" ∧
    ("Acme " : String) ≠ "" ∧
    containsSub "/company/" "https://www.linkedin.com/company/acme" = true ∧
    '?' ∉ ("https://www.linkedin.com/company/acme" : String).toList ∧
    '#' ∉ ("https://www.linkedin.com/company/acme" : String).toList :=
  ⟨by decide, by decide, by decide, by decide, by decide, by decide⟩

/-- Claim C7 as amended: the round trip is the identity provided additionally
that every name and url equals its whitespace-stripped form and contains no
character that JSON string serialization must escape (no quote, no backslash,
no control character) — conditions the original claim omits and the
counterexample shows are necessary. -/
theorem claim7_roundtrip_amended (l : List CompanyRecord)
    (hname : ∀ r ∈ l, r.name ≠ "" ∧ pyStrip r.name = r.name ∧ jsonSafeStr r.name)
    (hurl : ∀ r ∈ l, containsSub "/company/" r.linkedin_url = true ∧
      pyStrip r.linkedin_url = r.linkedin_url ∧ jsonSafeStr r.linkedin_url ∧
      '?' ∉ r.linkedin_url.toList ∧ '#' ∉ r.linkedin_url.toList)
    (hdist : l.Pairwise (fun a b => a.linkedin_url ≠ b.linkedin_url)) :
    extract_json_array (serializeRecords l) = l := by
  have hsafe : ∀ r ∈ l, (∀ c ∈ r.name.toList, c ≠ '"' ∧ c ≠ '\\' ∧ 32 ≤ c.toNat) ∧
      (∀ c ∈ r.linkedin_url.toList, c ≠ '"' ∧ c ≠ '\\' ∧ 32 ≤ c.toNat) :=
    fun r hr => ⟨(hname r hr).2.2, (hurl r hr).2.2.1⟩
  have hload : json_loads (candidateOf (serializeRecords l)) =
      some (Json.arr (l.map recordJson)) := by
    rw [candidateOf_serializeRecords, json_loads_serializeRecords l hsafe]
  have hs : serializeRecords l ≠ "" := ne_empty_of_toList_cons (serializeRecords_toList l)
  show dedupe (normalizedRows (serializeRecords l)) = l
  rw [normalizedRows_of_all_obj hs hload (all_isJObj_map l)]
  rw [filterMap_mkRow_map l (fun r hr => mkRow_recordJson r (hname r hr).1 (hname r hr).2.1
    (hurl r hr).1 (hurl r hr).2.1 (hurl r hr).2.2.2.1 (hurl r hr).2.2.2.2)]
  exact dedupeGo_eq_self (fun r _ => List.not_mem_nil _) hdist

/-- Witness for the amended C7, at a concrete one-record list. -/
theorem claim7_roundtrip_inst :
    extract_json_array
        (serializeRecords [⟨"Acme", "https://www.linkedin.com/company/acme"⟩]) =
      [⟨"Acme", "https://www.linkedin.com/company/acme"⟩] :=
  claim7_roundtrip_amended _ (by decide) (by decide) (by decide)
